import Mathlib

/-!
Verification of the Grassmann-manifold interpolation engine and the Simplex
sampler described by the repository's specification.  The repository ships
only usage notebooks and CI configuration; the engine itself
(`UQpy.DimensionReduction.Grassmann`) and the sampler
(`UQpy.SampleMethods.Simplex`) are external to the supplied sources, so every
definition below is modelled from the specification's description of those
components.  Numerical black boxes (the SVD routine, the pluggable
interpolation strategy, the random stream of the sampler) are represented by
explicit data together with the contracts the specification assigns to them.
-/

open Matrix Finset

/-- Real rectangular matrices, the ambient data type of the engine. -/
abbrev Mat (m n : ℕ) : Type := Matrix (Fin m) (Fin n) ℝ

/-- Modelled from the spec: a Grassmann Point is an orthonormal basis matrix
of reduced rank `p`; the invariant "columns are orthonormal" is carried by
the subtype. -/
def GrassmannPoint (n p : ℕ) : Type := {Ψ : Mat n p // Ψ.transpose * Ψ = 1}

/-- Modelled from the spec: the raw output of the (absent) numerical SVD
routine for an `m × k` input: left singular vectors, singular values, right
singular vectors. -/
structure SVDTriple (m k : ℕ) : Type where
  U : Mat m k
  S : Fin k → ℝ
  V : Mat k k

/-- Modelled from the spec: the contract of the singular value decomposition
used throughout the engine — a factorization into orthonormal factors with
the singular values sorted in decreasing order and non-negative. -/
structure IsSVDOf {m k : ℕ} (T : SVDTriple m k) (M : Mat m k) : Prop where
  factorization : M = T.U * Matrix.diagonal T.S * T.V.transpose
  left_orthonormal : T.U.transpose * T.U = 1
  right_orthonormal : T.V.transpose * T.V = 1
  sorted : Antitone T.S
  nonneg : ∀ i, 0 ≤ T.S i

/-- Modelled from the spec: the geodesic (Grassmann) distance is the
Euclidean norm of the principal angles, which are the arc-cosines of the
singular values of the product of the two orthonormal bases (the triple `T`
holds the output of the SVD routine on that product). -/
noncomputable def grassmann_distance {p : ℕ} (T : SVDTriple p p) : ℝ :=
  Real.sqrt (∑ i, Real.arccos (T.S i) ^ 2)

/-- Modelled from the spec: two Grassmann Points are equivalent when their
column spaces coincide regardless of the chosen basis representative, i.e.
the representatives differ by a right orthogonal factor. -/
def SameSubspace {n p : ℕ} (A B : GrassmannPoint n p) : Prop :=
  ∃ Q : Mat p p, Q.transpose * Q = 1 ∧ B.val = A.val * Q

/-- Modelled from the spec: retain the first `k` left-singular vectors of a
sample's decomposition as the orthonormal basis representative of the
sample's Grassmann Point. -/
def truncateBasis {m n : ℕ} (T : SVDTriple m n) (k : ℕ) (hk : k ≤ n) : Mat m k :=
  T.U.submatrix id (Fin.castLE hk)

/-- Modelled from the spec: build one Grassmann Point representative per
sample from the samples' SVD data, all at the common reduced rank `k`. -/
def build_points {m n : ℕ} (Ts : List (SVDTriple m n)) (k : ℕ) (hk : k ≤ n) :
    List (Mat m k) :=
  Ts.map (fun T => truncateBasis T k hk)

/-- Modelled from the spec: the error taxonomy of the engine. -/
inductive GrassmannError : Type where
  | DimensionMismatch : GrassmannError
  | RankMismatch : GrassmannError
deriving DecidableEq

/-- Modelled from the spec: `Grassmann.manifold` validates the requested
reduced rank before building manifold points.  An explicit rank (`some k`)
fails fast with `DimensionMismatch` whenever it exceeds the rank of any
input matrix; the policy `"max"` (`none`) instead selects the minimum rank
discoverable across all inputs.  The validated common rank is returned. -/
noncomputable def manifold {m n : ℕ} (p : Option ℕ) (samples : List (Mat m n)) :
    Except GrassmannError ℕ :=
  match p with
  | some k =>
    if ∀ M ∈ samples, k ≤ M.rank then Except.ok k
    else Except.error GrassmannError.DimensionMismatch
  | none => Except.ok ((samples.map (fun M => M.rank)).foldr min n)

/-- Modelled from the spec: the matrix whose SVD the logarithmic map
post-processes — the residual of the target point against the anchor. -/
noncomputable def log_residual {n p : ℕ} (anchor pt : GrassmannPoint n p) : Mat n p :=
  pt.val * (anchor.val.transpose * pt.val)⁻¹ - anchor.val

/-- Modelled from the spec: the logarithmic map sends a manifold point to a
tangent vector at the anchor; `T` is the SVD data of the residual and the
principal-angle arc-tangents are applied to its singular values. -/
noncomputable def log_tangent {n p : ℕ} (T : SVDTriple n p) : Mat n p :=
  T.U * Matrix.diagonal (fun i => Real.arctan (T.S i)) * T.V.transpose

/-- Modelled from the spec: the exponential map sends a tangent vector at
the anchor back onto the manifold; `T` is the SVD data of the tangent
vector. -/
noncomputable def exp_point {n p : ℕ} (anchor : GrassmannPoint n p) (T : SVDTriple n p) :
    Mat n p :=
  anchor.val * T.V * Matrix.diagonal (fun i => Real.cos (T.S i)) * T.V.transpose +
    T.U * Matrix.diagonal (fun i => Real.sin (T.S i)) * T.V.transpose

/-- Squared Frobenius norm of a matrix. -/
def frobNormSq {n p : ℕ} (T : Mat n p) : ℝ := ∑ i, ∑ j, T i j ^ 2

/-- Frobenius norm of a matrix, used as the convergence measure of the
Karcher-mean solver. -/
noncomputable def frobNorm {n p : ℕ} (T : Mat n p) : ℝ := Real.sqrt (frobNormSq T)

/-- Modelled from the spec: one averaging step of the Karcher-mean solver —
the mean of the tangent-space images of all points at the current mean
estimate.  `logMap` is the anchor-indexed logarithmic map subroutine. -/
noncomputable def gd_avg {n p : ℕ} (logMap : GrassmannPoint n p → GrassmannPoint n p → Mat n p)
    (points : List (GrassmannPoint n p)) (cur : GrassmannPoint n p) : Mat n p :=
  ((points.length : ℝ))⁻¹ • (points.map (fun q => logMap cur q)).sum

/-- Modelled from the spec: the bounded iteration of the Karcher-mean
gradient descent.  Each iteration computes the averaged tangent vector at
the current mean estimate; if its norm falls below the tolerance the current
estimate is returned with the convergence flag set, otherwise the estimate
moves along the exponential map and the budget decreases.  Exhausting the
budget returns the best available estimate with the flag cleared — never a
hard failure. -/
noncomputable def gd_loop {n p : ℕ}
    (logMap : GrassmannPoint n p → GrassmannPoint n p → Mat n p)
    (expMap : GrassmannPoint n p → Mat n p → GrassmannPoint n p)
    (points : List (GrassmannPoint n p)) (tol : ℝ) :
    ℕ → GrassmannPoint n p → GrassmannPoint n p × Bool
  | 0, cur => (cur, false)
  | Nat.succ fuel, cur =>
    let avg := gd_avg logMap points cur
    if frobNorm avg < tol then (cur, true)
    else gd_loop logMap expMap points tol fuel (expMap cur avg)

/-- Modelled from the spec: the deterministic trajectory of mean estimates
visited by the gradient descent, used to phrase what "the best available
estimate" is when the budget runs out. -/
noncomputable def gd_iter {n p : ℕ}
    (logMap : GrassmannPoint n p → GrassmannPoint n p → Mat n p)
    (expMap : GrassmannPoint n p → Mat n p → GrassmannPoint n p)
    (points : List (GrassmannPoint n p)) :
    ℕ → GrassmannPoint n p → GrassmannPoint n p
  | 0, cur => cur
  | Nat.succ k, cur =>
    gd_iter logMap expMap points k (expMap cur (gd_avg logMap points cur))

/-- Modelled from the spec: `Grassmann.gradient_descent`, the Karcher-mean
solver.  It starts from the first input point and always returns a pair of
the mean estimate and a convergence flag; the empty input has no mean. -/
noncomputable def gradient_descent {n p : ℕ}
    (logMap : GrassmannPoint n p → GrassmannPoint n p → Mat n p)
    (expMap : GrassmannPoint n p → Mat n p → GrassmannPoint n p)
    (points : List (GrassmannPoint n p)) (tol : ℝ) (maxIter : ℕ) :
    Option (GrassmannPoint n p × Bool) :=
  match points with
  | [] => none
  | p0 :: rest => some (gd_loop logMap expMap (p0 :: rest) tol maxIter p0)

/-- Modelled from the spec: `karcher_mean` is the engine's name for the
gradient-descent Karcher-mean solver. -/
noncomputable def karcher_mean {n p : ℕ}
    (logMap : GrassmannPoint n p → GrassmannPoint n p → Mat n p)
    (expMap : GrassmannPoint n p → Mat n p → GrassmannPoint n p)
    (points : List (GrassmannPoint n p)) (tol : ℝ) (maxIter : ℕ) :
    Option (GrassmannPoint n p × Bool) :=
  gradient_descent logMap expMap points tol maxIter

/-- Modelled from the spec: `Grassmann.interpolate`.  Given the known
(coordinate, Grassmann Point) pairs and one query coordinate, the sole
sample is returned unchanged when `N = 1`; otherwise the Karcher mean
anchors a tangent space, the supplied fit/predict strategy interpolates the
tangent vectors at the query, and the exponential map carries the predicted
tangent vector back to the manifold.  The solver, the tangent maps and the
strategy are the engine's pluggable subroutines. -/
def interpolate {γ : Type} {n p : ℕ}
    (karcher : List (GrassmannPoint n p) → GrassmannPoint n p × Bool)
    (logMap : GrassmannPoint n p → GrassmannPoint n p → Mat n p)
    (expMap : GrassmannPoint n p → Mat n p → Mat n p)
    (strategy : List (γ × Mat n p) → γ → Mat n p)
    (pairs : List (γ × GrassmannPoint n p)) (query : γ) : Option (Mat n p) :=
  match pairs with
  | [] => none
  | [cp] => some cp.2.val
  | cp₁ :: cp₂ :: rest =>
    let anchor := (karcher ((cp₁ :: cp₂ :: rest).map Prod.snd)).1
    let tangents := (cp₁ :: cp₂ :: rest).map (fun cp => (cp.1, logMap anchor cp.2))
    some (expMap anchor (strategy tangents query))

/-- Modelled from the spec: one engine invocation bundles every explicit
input of `interpolate`, including the pluggable subroutines. -/
structure EngineCall (γ : Type) (n p : ℕ) : Type where
  karcher : List (GrassmannPoint n p) → GrassmannPoint n p × Bool
  logMap : GrassmannPoint n p → GrassmannPoint n p → Mat n p
  expMap : GrassmannPoint n p → Mat n p → Mat n p
  strategy : List (γ × Mat n p) → γ → Mat n p
  pairs : List (γ × GrassmannPoint n p)
  query : γ

/-- The value of a single engine invocation, as a function of that
invocation's explicit inputs alone. -/
def callResult {γ : Type} {n p : ℕ} (c : EngineCall γ n p) : Option (Mat n p) :=
  interpolate c.karcher c.logMap c.expMap c.strategy c.pairs c.query

/-- Modelled from the spec: the engine keeps no persistent cross-call state,
so a sequence of invocations is processed by evaluating each invocation on
its own inputs. -/
def runEngine {γ : Type} {n p : ℕ} (calls : List (EngineCall γ n p)) :
    List (Option (Mat n p)) :=
  calls.map callResult

/-- Modelled from the spec: `UQpy.SampleMethods.Simplex`, absent from the
sources.  The notebook documents that it generates `nsamples` random samples
uniformly inside the simplex spanned by the given vertex nodes; the random
stream is abstracted as the barycentric weight sequence `rng`. -/
structure Simplex (k d : ℕ) : Type where
  nodes : Matrix (Fin k) (Fin d) ℝ
  rng : ℕ → Fin k → ℝ

/-- Modelled from the spec: `Simplex.run` produces an `nsamples`-by-`d`
array whose rows are the convex combinations of the vertex nodes drawn by
the random stream. -/
def Simplex.run {k d : ℕ} (S : Simplex k d) (nsamples : ℕ) :
    Matrix (Fin nsamples) (Fin d) ℝ :=
  Matrix.of fun s j => ∑ i, S.rng s i * S.nodes i j

/-- Modelled from the spec: constructing a `Simplex` with the `nsamples`
argument generates the samples at construction time. -/
def Simplex.samplesInit {k d : ℕ} (nodes : Matrix (Fin k) (Fin d) ℝ)
    (rng : ℕ → Fin k → ℝ) (nsamples : ℕ) : Matrix (Fin nsamples) (Fin d) ℝ :=
  (Simplex.mk nodes rng).run nsamples

/-! Helper lemmas. -/

lemma frobNormSq_zero {n p : ℕ} : frobNormSq (0 : Mat n p) = 0 := by
  simp [frobNormSq]

lemma frobNorm_zero {n p : ℕ} : frobNorm (0 : Mat n p) = 0 := by
  simp [frobNorm, frobNormSq_zero]

lemma frobNorm_nonneg {n p : ℕ} (T : Mat n p) : 0 ≤ frobNorm T :=
  Real.sqrt_nonneg _

lemma gd_avg_of_constant {n p : ℕ}
    (logMap : GrassmannPoint n p → GrassmannPoint n p → Mat n p)
    (points : List (GrassmannPoint n p)) (P : GrassmannPoint n p)
    (hall : ∀ Q ∈ points, Q = P) (hlog : logMap P P = 0) :
    gd_avg logMap points P = 0 := by
  unfold gd_avg
  have hsum : (points.map (fun q => logMap P q)).sum = 0 := by
    apply List.sum_eq_zero
    intro x hx
    rcases List.mem_map.1 hx with ⟨Q, hQ, rfl⟩
    rw [hall Q hQ, hlog]
  rw [hsum, smul_zero]

lemma gd_loop_exhaust {n p : ℕ}
    (logMap : GrassmannPoint n p → GrassmannPoint n p → Mat n p)
    (expMap : GrassmannPoint n p → Mat n p → GrassmannPoint n p)
    (points : List (GrassmannPoint n p)) (tol : ℝ) :
    ∀ (fuel : ℕ) (cur : GrassmannPoint n p),
      (∀ k < fuel,
        ¬ frobNorm (gd_avg logMap points (gd_iter logMap expMap points k cur)) < tol) →
      gd_loop logMap expMap points tol fuel cur =
        (gd_iter logMap expMap points fuel cur, false) := by
  intro fuel
  induction fuel with
  | zero => intro cur _; rfl
  | succ f ih =>
    intro cur hnc
    have h0 : ¬ frobNorm (gd_avg logMap points cur) < tol := hnc 0 (Nat.succ_pos f)
    show (if frobNorm (gd_avg logMap points cur) < tol then (cur, true)
      else gd_loop logMap expMap points tol f
        (expMap cur (gd_avg logMap points cur))) =
      (gd_iter logMap expMap points (f + 1) cur, false)
    rw [if_neg h0]
    exact ih (expMap cur (gd_avg logMap points cur)) (fun k hk => hnc (k + 1) (Nat.succ_lt_succ hk))

/-- C1: for an input consisting of exactly one (coordinate, point) pair,
`interpolate` returns the sole sample's Grassmann Point unchanged for every
query coordinate, and the result never depends on the Karcher-mean solver
(the solver subroutine is not entered). -/
theorem interpolate_single {γ : Type} {n p : ℕ}
    (karcher karcher' : List (GrassmannPoint n p) → GrassmannPoint n p × Bool)
    (logMap : GrassmannPoint n p → GrassmannPoint n p → Mat n p)
    (expMap : GrassmannPoint n p → Mat n p → Mat n p)
    (strategy : List (γ × Mat n p) → γ → Mat n p)
    (c : γ) (P : GrassmannPoint n p) (query : γ) :
    interpolate karcher logMap expMap strategy [(c, P)] query = some P.val ∧
    interpolate karcher logMap expMap strategy [(c, P)] query =
      interpolate karcher' logMap expMap strategy [(c, P)] query :=
  ⟨rfl, rfl⟩

/-- C2: when the Karcher-mean solver's iteration budget is exhausted without
the averaged tangent-vector norm falling below the tolerance, no error is
raised: the call returns the pair of the best available mean estimate (the
last trajectory iterate) and the convergence flag `false`. -/
theorem karcher_mean_exhausted {n p : ℕ}
    (logMap : GrassmannPoint n p → GrassmannPoint n p → Mat n p)
    (expMap : GrassmannPoint n p → Mat n p → GrassmannPoint n p)
    (p0 : GrassmannPoint n p) (rest : List (GrassmannPoint n p))
    (tol : ℝ) (maxIter : ℕ)
    (hnc : ∀ k < maxIter,
      ¬ frobNorm (gd_avg logMap (p0 :: rest)
          (gd_iter logMap expMap (p0 :: rest) k p0)) < tol) :
    karcher_mean logMap expMap (p0 :: rest) tol maxIter =
      some (gd_iter logMap expMap (p0 :: rest) maxIter p0, false) :=
  congrArg some (gd_loop_exhaust logMap expMap (p0 :: rest) tol maxIter p0 hnc)

/-- Witness for C2: a concrete run (constant zero tangent map, tolerance 0)
exhausts a budget of one iteration and returns the estimate with the flag
cleared. -/
theorem karcher_mean_exhausted_witness :
    karcher_mean (n := 1) (p := 1) (fun _ _ => 0) (fun q _ => q)
        [⟨1, by simp⟩] 0 1 =
      some (gd_iter (fun _ _ => 0) (fun q _ => q) [⟨1, by simp⟩] 1 ⟨1, by simp⟩, false) :=
  karcher_mean_exhausted (fun _ _ => 0) (fun q _ => q) ⟨1, by simp⟩ [] 0 1
    (fun k _ => not_lt.mpr (frobNorm_nonneg _))

/-- C9: on a non-empty set of points all equal to some point `P`, the
Karcher-mean solver converges to `P` within any positive tolerance in a
single iteration (a budget of one iteration suffices), returning the
convergence flag set. -/
theorem karcher_mean_constant {n p : ℕ}
    (logMap : GrassmannPoint n p → GrassmannPoint n p → Mat n p)
    (expMap : GrassmannPoint n p → Mat n p → GrassmannPoint n p)
    (P : GrassmannPoint n p) (points : List (GrassmannPoint n p))
    (tol : ℝ) (maxIter : ℕ)
    (hlog : logMap P P = 0) (hne : points ≠ [])
    (hall : ∀ Q ∈ points, Q = P) (htol : 0 < tol) (hiter : 1 ≤ maxIter) :
    karcher_mean logMap expMap points tol maxIter = some (P, true) ∧
    karcher_mean logMap expMap points tol 1 = some (P, true) := by
  match points, hne with
  | p0 :: rest, _ =>
    have hp0 : p0 = P := hall p0 (List.mem_cons_self p0 rest)
    subst hp0
    have havg : gd_avg logMap (p0 :: rest) p0 = 0 :=
      gd_avg_of_constant logMap (p0 :: rest) p0 hall hlog
    have hstep : ∀ f : ℕ, gd_loop logMap expMap (p0 :: rest) tol (f + 1) p0 = (p0, true) := by
      intro f
      show (if frobNorm (gd_avg logMap (p0 :: rest) p0) < tol then (p0, true)
        else gd_loop logMap expMap (p0 :: rest) tol f
          (expMap p0 (gd_avg logMap (p0 :: rest) p0))) = (p0, true)
      rw [havg, frobNorm_zero, if_pos htol]
    constructor
    · obtain ⟨f, rfl⟩ : ∃ f, maxIter = f + 1 := by
        cases maxIter with
        | zero => exact absurd hiter (by simp)
        | succ f => exact ⟨f, rfl⟩
      exact congrArg some (hstep f)
    · exact congrArg some (hstep 0)

/-- Witness for C9: a concrete constant family converges in one iteration. -/
theorem karcher_mean_constant_witness :
    karcher_mean (n := 1) (p := 1) (fun _ _ => 0) (fun q _ => q)
        [⟨1, by simp⟩] 1 1 = some ((⟨1, by simp⟩ : GrassmannPoint 1 1), true) ∧
    karcher_mean (n := 1) (p := 1) (fun _ _ => 0) (fun q _ => q)
        [⟨1, by simp⟩] 1 1 = some ((⟨1, by simp⟩ : GrassmannPoint 1 1), true) :=
  ⟨(karcher_mean_constant (fun _ _ => 0) (fun q _ => q) ⟨1, by simp⟩ [⟨1, by simp⟩] 1 1
      rfl (by simp) (by simp) one_pos le_rfl).1,
   (karcher_mean_constant (fun _ _ => 0) (fun q _ => q) ⟨1, by simp⟩ [⟨1, by simp⟩] 1 1
      rfl (by simp) (by simp) one_pos le_rfl).2⟩

/-- C8: the engine keeps no persistent state across calls: running a call
after any history yields the pure function of that call's explicit inputs,
so identical invocations give identical results independent of any earlier
calls to the engine. -/
theorem engine_stateless {γ : Type} {n p : ℕ}
    (h₁ h₂ : List (EngineCall γ n p)) (c : EngineCall γ n p) :
    (runEngine (h₁ ++ [c])).getLast? = some (callResult c) ∧
    (runEngine (h₁ ++ [c])).getLast? = (runEngine (h₂ ++ [c])).getLast? ∧
    callResult c = interpolate c.karcher c.logMap c.expMap c.strategy c.pairs c.query := by
  have key : ∀ h : List (EngineCall γ n p),
      (runEngine (h ++ [c])).getLast? = some (callResult c) := by
    intro h
    unfold runEngine
    rw [List.map_append]
    exact List.getLast?_concat _
  exact ⟨key h₁, (key h₁).trans (key h₂).symm, rfl⟩

/-- C6: with an explicitly requested integer rank (not the policy `"max"`),
building manifold points fails fast with `DimensionMismatch` whenever the
requested rank exceeds the rank of any input matrix. -/
theorem manifold_dimension_mismatch {m n : ℕ} (k : ℕ)
    (samples : List (Mat m n)) (M : Mat m n)
    (hM : M ∈ samples) (hr : M.rank < k) :
    manifold (some k) samples = Except.error GrassmannError.DimensionMismatch := by
  have hcond : ¬ ∀ M' ∈ samples, k ≤ Matrix.rank M' :=
    fun h => absurd (h M hM) (not_le.mpr hr)
  show (if ∀ M' ∈ samples, k ≤ Matrix.rank M' then Except.ok k
    else Except.error GrassmannError.DimensionMismatch) =
    Except.error GrassmannError.DimensionMismatch
  rw [if_neg hcond]

/-- Witness for C6: requesting rank 1 with a zero sample (rank 0) fails with
`DimensionMismatch`. -/
theorem manifold_dimension_mismatch_witness :
    manifold (m := 1) (n := 1) (some 1) [0] =
      Except.error GrassmannError.DimensionMismatch :=
  manifold_dimension_mismatch 1 [0] 0 (by simp)
    (by rw [Matrix.rank_zero]; exact one_pos)

/-- C10: every sample generated by the Simplex sampler is a convex
combination of the vertex nodes, hence lies inside the simplex (the convex
hull of the nodes); the samples form an `nsamples`-by-`d` array, and the
constructor's `nsamples` argument and a later `run nsamples` call produce
the same samples. -/
theorem simplex_samples_in_hull {k d : ℕ}
    (nodes : Matrix (Fin k) (Fin d) ℝ) (rng : ℕ → Fin k → ℝ) (nsamples : ℕ)
    (hw : ∀ s : ℕ, (∀ i, 0 ≤ rng s i) ∧ ∑ i, rng s i = 1) :
    (∀ s : Fin nsamples,
      (Simplex.mk nodes rng).run nsamples s ∈
        convexHull ℝ (Set.range fun i => nodes i)) ∧
    Simplex.samplesInit nodes rng nsamples = (Simplex.mk nodes rng).run nsamples := by
  constructor
  · intro s
    have hrow : (Simplex.mk nodes rng).run nsamples s = ∑ i, rng s i • nodes i := by
      funext j
      show ∑ i, rng s i * nodes i j = (∑ i, rng s i • nodes i) j
      rw [Finset.sum_apply]
      simp [Pi.smul_apply, smul_eq_mul]
    rw [hrow]
    exact Convex.sum_mem (convex_convexHull ℝ _)
      (fun i _ => (hw s).1 i) (hw s).2
      (fun i _ => subset_convexHull ℝ _ (Set.mem_range_self i))
  · rfl

/-- Witness for C10: ten-to-one uniform barycentric weights on the
notebook's triangle give samples inside the triangle. -/
theorem simplex_samples_in_hull_witness :
    (∀ s : Fin 1,
      (Simplex.mk (!![0, 0; 1/2, 1; 1, 0] : Matrix (Fin 3) (Fin 2) ℝ)
          (fun _ _ => (3 : ℝ)⁻¹)).run 1 s ∈
        convexHull ℝ (Set.range fun i => (!![0, 0; 1/2, 1; 1, 0] : Matrix (Fin 3) (Fin 2) ℝ) i)) ∧
    Simplex.samplesInit (!![0, 0; 1/2, 1; 1, 0] : Matrix (Fin 3) (Fin 2) ℝ)
        (fun _ _ => (3 : ℝ)⁻¹) 1 =
      (Simplex.mk (!![0, 0; 1/2, 1; 1, 0] : Matrix (Fin 3) (Fin 2) ℝ)
          (fun _ _ => (3 : ℝ)⁻¹)).run 1 :=
  simplex_samples_in_hull _ _ 1
    (fun s => ⟨fun i => by norm_num, by norm_num [Fin.sum_univ_three]⟩)

lemma diagonal_eq_conj {m k : ℕ} (T : SVDTriple m k) (M : Mat m k) (hT : IsSVDOf T M) :
    Matrix.diagonal T.S = T.U.transpose * M * T.V := by
  have h1 : T.U.transpose * (T.U * Matrix.diagonal T.S * T.V.transpose) * T.V
      = T.U.transpose * T.U * (Matrix.diagonal T.S * (T.V.transpose * T.V)) := by
    simp only [Matrix.mul_assoc]
  rw [hT.factorization, h1, hT.left_orthonormal, hT.right_orthonormal,
    Matrix.one_mul, Matrix.mul_one]

lemma svd_zero_S {m k : ℕ} (T : SVDTriple m k) (hT : IsSVDOf T (0 : Mat m k)) :
    T.S = 0 := by
  have h := diagonal_eq_conj T 0 hT
  rw [Matrix.mul_zero, Matrix.zero_mul] at h
  funext i
  have := congrFun (congrFun h i) i
  rwa [Matrix.diagonal_apply_eq, Matrix.zero_apply] at this

lemma log_residual_self {n p : ℕ} (anchor : GrassmannPoint n p) :
    log_residual anchor anchor = 0 := by
  unfold log_residual
  rw [anchor.prop, inv_one, Matrix.mul_one, sub_self]

/-- C5: the basis matrix of every Grassmann Point built by `build_points`
from one sample matrix `M` at any rank `k ≤ rank M` has orthonormal columns:
its transpose times itself is the `k × k` identity. -/
theorem build_points_orthonormal {m n : ℕ} (M : Mat m n) (T : SVDTriple m n)
    (k : ℕ) (hk : k ≤ n) (hT : IsSVDOf T M) (hrank : k ≤ M.rank) :
    ∀ Ψ ∈ build_points [T] k hk, Ψ.transpose * Ψ = 1 := by
  intro Ψ hΨ
  have hΨ' : Ψ = truncateBasis T k hk := by
    simpa [build_points] using hΨ
  subst hΨ'
  unfold truncateBasis
  rw [Matrix.transpose_submatrix,
    ← Matrix.submatrix_mul T.U.transpose T.U (Fin.castLE hk) id (Fin.castLE hk)
      Function.bijective_id,
    hT.left_orthonormal]
  exact Matrix.submatrix_one _ (Fin.castLE_injective hk)

/-- Witness for C5: truncating the trivial decomposition of the 1×1 identity
at rank 1 yields an orthonormal basis. -/
theorem build_points_orthonormal_witness :
    (truncateBasis (⟨1, fun _ => 1, 1⟩ : SVDTriple 1 1) 1 le_rfl).transpose *
      truncateBasis (⟨1, fun _ => 1, 1⟩ : SVDTriple 1 1) 1 le_rfl = 1 :=
  build_points_orthonormal (1 : Mat 1 1) ⟨1, fun _ => 1, 1⟩ 1 le_rfl
    ⟨by simp [Matrix.diagonal_one], by simp, by simp, antitone_const, fun i => zero_le_one⟩
    (by rw [Matrix.rank_one]; simp)
    (truncateBasis ⟨1, fun _ => 1, 1⟩ 1 le_rfl) (by simp [build_points])

/-- C7: the logarithmic map of a point relative to itself as anchor yields
the zero tangent vector, and the exponential map of the zero tangent vector
at any anchor yields the anchor exactly. -/
theorem log_exp_roundtrip {n p : ℕ} (anchor : GrassmannPoint n p)
    (T₁ T₂ : SVDTriple n p)
    (h₁ : IsSVDOf T₁ (log_residual anchor anchor))
    (h₂ : IsSVDOf T₂ (0 : Mat n p)) :
    log_tangent T₁ = 0 ∧ exp_point anchor T₂ = anchor.val := by
  have hres : log_residual anchor anchor = 0 := log_residual_self anchor
  rw [hres] at h₁
  have hS₁ : T₁.S = 0 := svd_zero_S T₁ h₁
  have hS₂ : T₂.S = 0 := svd_zero_S T₂ h₂
  constructor
  · unfold log_tangent
    rw [hS₁]
    simp
  · unfold exp_point
    rw [hS₂]
    have hVVt : T₂.V * T₂.V.transpose = 1 :=
      Matrix.mul_eq_one_comm.mp h₂.right_orthonormal
    simp only [Pi.zero_apply, Real.cos_zero, Real.sin_zero, Matrix.diagonal_one,
      Matrix.diagonal_zero, Matrix.mul_one, Matrix.mul_zero, Matrix.zero_mul,
      add_zero, Matrix.mul_assoc, hVVt]

lemma charpoly_orth_conj {k : ℕ} (P A : Mat k k) (hP : P.transpose * P = 1) :
    (P * A * P.transpose).charpoly = A.charpoly := by
  have hPPt : P * P.transpose = 1 := Matrix.mul_eq_one_comm.mp hP
  have hmap1 : P.map (Polynomial.C : ℝ → Polynomial ℝ) *
      P.transpose.map (Polynomial.C : ℝ → Polynomial ℝ) = 1 := by
    rw [← Matrix.map_mul, hPPt]
    exact Matrix.map_one _ (map_zero Polynomial.C) (map_one Polynomial.C)
  have hchar : Matrix.charmatrix (P * A * P.transpose) =
      P.map Polynomial.C * Matrix.charmatrix A * P.transpose.map Polynomial.C := by
    unfold Matrix.charmatrix
    rw [RingHom.mapMatrix_apply, RingHom.mapMatrix_apply]
    rw [Matrix.mul_sub, Matrix.sub_mul]
    have hsc : P.map Polynomial.C * Matrix.scalar (Fin k) Polynomial.X *
        P.transpose.map Polynomial.C = Matrix.scalar (Fin k) Polynomial.X := by
      have hcomm :=
        (Matrix.scalar_commute (Polynomial.X : Polynomial ℝ)
          (fun r' => Commute.all _ _) (P.map Polynomial.C)).eq
      rw [← hcomm, Matrix.mul_assoc, hmap1, Matrix.mul_one]
    rw [hsc, ← Matrix.map_mul, ← Matrix.map_mul]
  unfold Matrix.charpoly
  rw [hchar, Matrix.det_mul, Matrix.det_mul]
  have hdet : (P.map (Polynomial.C : ℝ → Polynomial ℝ)).det *
      (P.transpose.map (Polynomial.C : ℝ → Polynomial ℝ)).det = 1 := by
    rw [← Matrix.det_mul, hmap1, Matrix.det_one]
  rw [mul_right_comm, hdet, one_mul]

lemma charmatrix_diagonal {k : ℕ} (d : Fin k → ℝ) :
    Matrix.charmatrix (Matrix.diagonal d) =
      Matrix.diagonal (fun i => Polynomial.X - Polynomial.C (d i)) := by
  ext i j
  by_cases h : i = j
  · subst h
    rw [Matrix.charmatrix_apply_eq, Matrix.diagonal_apply_eq, Matrix.diagonal_apply_eq]
  · rw [Matrix.charmatrix_apply_ne _ _ _ h, Matrix.diagonal_apply_ne _ h,
      Matrix.diagonal_apply_ne _ h, map_zero, neg_zero]

lemma charpoly_diagonal {k : ℕ} (d : Fin k → ℝ) :
    (Matrix.diagonal d).charpoly = ∏ i, (Polynomial.X - Polynomial.C (d i)) := by
  unfold Matrix.charpoly
  rw [charmatrix_diagonal, Matrix.det_diagonal]

lemma roots_charpoly_diagonal {k : ℕ} (d : Fin k → ℝ) :
    (Matrix.diagonal d).charpoly.roots = Finset.univ.val.map d := by
  have hcomp : (Finset.univ.val.map d).map (fun a => Polynomial.X - Polynomial.C a) =
      Finset.univ.val.map (fun i => Polynomial.X - Polynomial.C (d i)) := by
    rw [Multiset.map_map]
    rfl
  rw [charpoly_diagonal, Finset.prod_eq_multiset_prod, ← hcomp,
    Polynomial.roots_multiset_prod_X_sub_C]

lemma antitone_eq_of_multiset_eq {k : ℕ} (s s' : Fin k → ℝ)
    (hs : Antitone s) (hs' : Antitone s')
    (h : Finset.univ.val.map s = Finset.univ.val.map s') : s = s' := by
  rw [Fin.univ_val_map, Fin.univ_val_map] at h
  have hperm : (List.ofFn s).Perm (List.ofFn s') := Multiset.coe_eq_coe.mp h
  haveI : IsAntisymm ℝ (fun a b => a ≥ b) := ⟨fun a b h1 h2 => le_antisymm h2 h1⟩
  have hsort : (List.ofFn s).Sorted (fun a b => a ≥ b) :=
    List.pairwise_ofFn.mpr (fun i j hij => hs hij.le)
  have hsort' : (List.ofFn s').Sorted (fun a b => a ≥ b) :=
    List.pairwise_ofFn.mpr (fun i j hij => hs' hij.le)
  exact List.ofFn_injective (List.eq_of_perm_of_sorted hperm hsort hsort')

lemma svd_gram {k : ℕ} (T : SVDTriple k k) (M : Mat k k) (hT : IsSVDOf T M) :
    M.transpose * M =
      T.V * Matrix.diagonal (fun i => T.S i * T.S i) * T.V.transpose := by
  rw [hT.factorization]
  have h1 : (T.U * Matrix.diagonal T.S * T.V.transpose).transpose =
      T.V * Matrix.diagonal T.S * T.U.transpose := by
    rw [Matrix.transpose_mul, Matrix.transpose_mul, Matrix.transpose_transpose,
      Matrix.diagonal_transpose, Matrix.mul_assoc]
  rw [h1]
  calc T.V * Matrix.diagonal T.S * T.U.transpose *
        (T.U * Matrix.diagonal T.S * T.V.transpose)
      = T.V * Matrix.diagonal T.S *
          (T.U.transpose * T.U * (Matrix.diagonal T.S * T.V.transpose)) := by
        simp only [Matrix.mul_assoc]
    _ = T.V * Matrix.diagonal T.S * (Matrix.diagonal T.S * T.V.transpose) := by
        rw [hT.left_orthonormal, Matrix.one_mul]
    _ = T.V * (Matrix.diagonal T.S * Matrix.diagonal T.S) * T.V.transpose := by
        simp only [Matrix.mul_assoc]
    _ = T.V * Matrix.diagonal (fun i => T.S i * T.S i) * T.V.transpose := by
        rw [Matrix.diagonal_mul_diagonal]

lemma singular_values_unique {k : ℕ} (M : Mat k k) (T T' : SVDTriple k k)
    (hT : IsSVDOf T M) (hT' : IsSVDOf T' M) : T.S = T'.S := by
  have hgram := (svd_gram T M hT).symm.trans (svd_gram T' M hT')
  have hVVt : T.V * T.V.transpose = 1 :=
    Matrix.mul_eq_one_comm.mp hT.right_orthonormal
  have hP : (T.V.transpose * T'.V).transpose * (T.V.transpose * T'.V) = 1 := by
    rw [Matrix.transpose_mul, Matrix.transpose_transpose]
    calc T'.V.transpose * T.V * (T.V.transpose * T'.V)
        = T'.V.transpose * (T.V * T.V.transpose * T'.V) := by
          simp only [Matrix.mul_assoc]
      _ = T'.V.transpose * T'.V := by rw [hVVt, Matrix.one_mul]
      _ = 1 := hT'.right_orthonormal
  have hD2 : Matrix.diagonal (fun i => T.S i * T.S i) =
      (T.V.transpose * T'.V) * Matrix.diagonal (fun i => T'.S i * T'.S i) *
        (T.V.transpose * T'.V).transpose := by
    rw [Matrix.transpose_mul, Matrix.transpose_transpose]
    have h1 : T.V.transpose *
        (T.V * Matrix.diagonal (fun i => T.S i * T.S i) * T.V.transpose) * T.V =
        Matrix.diagonal (fun i => T.S i * T.S i) := by
      calc T.V.transpose *
            (T.V * Matrix.diagonal (fun i => T.S i * T.S i) * T.V.transpose) * T.V
          = T.V.transpose * T.V * Matrix.diagonal (fun i => T.S i * T.S i) *
              (T.V.transpose * T.V) := by simp only [Matrix.mul_assoc]
        _ = Matrix.diagonal (fun i => T.S i * T.S i) := by
            rw [hT.right_orthonormal, Matrix.one_mul, Matrix.mul_one]
    rw [← h1, hgram]
    simp only [Matrix.mul_assoc]
  have hcp : (Matrix.diagonal (fun i => T.S i * T.S i)).charpoly =
      (Matrix.diagonal (fun i => T'.S i * T'.S i)).charpoly := by
    rw [hD2, charpoly_orth_conj _ _ hP]
  have hroots : Finset.univ.val.map (fun i => T.S i * T.S i) =
      Finset.univ.val.map (fun i => T'.S i * T'.S i) := by
    rw [← roots_charpoly_diagonal, ← roots_charpoly_diagonal, hcp]
  have hmapS : Finset.univ.val.map T.S = Finset.univ.val.map T'.S := by
    have hsq := congrArg (Multiset.map Real.sqrt) hroots
    rw [Multiset.map_map, Multiset.map_map] at hsq
    have e1 : (Real.sqrt ∘ fun i => T.S i * T.S i) = T.S := by
      funext i
      exact Real.sqrt_mul_self (hT.nonneg i)
    have e2 : (Real.sqrt ∘ fun i => T'.S i * T'.S i) = T'.S := by
      funext i
      exact Real.sqrt_mul_self (hT'.nonneg i)
    rwa [e1, e2] at hsq
  exact antitone_eq_of_multiset_eq T.S T'.S hT.sorted hT'.sorted hmapS

lemma svd_transpose {k : ℕ} (T : SVDTriple k k) (M : Mat k k) (hT : IsSVDOf T M) :
    IsSVDOf ⟨T.V, T.S, T.U⟩ M.transpose := by
  refine ⟨?_, hT.right_orthonormal, hT.left_orthonormal, hT.sorted, hT.nonneg⟩
  show M.transpose = T.V * Matrix.diagonal T.S * T.U.transpose
  rw [hT.factorization, Matrix.transpose_mul, Matrix.transpose_mul,
    Matrix.transpose_transpose, Matrix.diagonal_transpose, Matrix.mul_assoc]

/-- C3: the Grassmann distance is symmetric — for Grassmann Points `A`, `B`
of equal rank, the distance computed from the principal angles of `AᵀB`
equals the distance computed from the principal angles of `BᵀA`, for any
contract-satisfying outputs of the SVD routine on the two products. -/
theorem grassmann_distance_symm {n p : ℕ} (A B : GrassmannPoint n p)
    (T T' : SVDTriple p p)
    (hT : IsSVDOf T (A.val.transpose * B.val))
    (hT' : IsSVDOf T' (B.val.transpose * A.val)) :
    grassmann_distance T = grassmann_distance T' := by
  have htrans : (A.val.transpose * B.val).transpose = B.val.transpose * A.val := by
    rw [Matrix.transpose_mul, Matrix.transpose_transpose]
  have h2 : IsSVDOf ⟨T.V, T.S, T.U⟩ (B.val.transpose * A.val) :=
    htrans ▸ svd_transpose T _ hT
  have hS : T'.S = T.S :=
    singular_values_unique (B.val.transpose * A.val) T' ⟨T.V, T.S, T.U⟩ hT' h2
  unfold grassmann_distance
  rw [hS]

/-- Witness for C3: the 1×1 identity data realizes the symmetry claim. -/
theorem grassmann_distance_symm_witness :
    grassmann_distance (⟨1, fun _ => 1, 1⟩ : SVDTriple 1 1) =
      grassmann_distance (⟨1, fun _ => 1, 1⟩ : SVDTriple 1 1) :=
  grassmann_distance_symm (⟨1, by simp⟩ : GrassmannPoint 1 1) ⟨1, by simp⟩
    ⟨1, fun _ => 1, 1⟩ ⟨1, fun _ => 1, 1⟩
    ⟨by simp [Matrix.diagonal_one], by simp, by simp, antitone_const, fun i => zero_le_one⟩
    ⟨by simp [Matrix.diagonal_one], by simp, by simp, antitone_const, fun i => zero_le_one⟩

lemma mulVec_orthonormal_dot {n p : ℕ} (Amat : Mat n p)
    (hA : Amat.transpose * Amat = 1) (u : Fin p → ℝ) :
    (Amat *ᵥ u) ⬝ᵥ (Amat *ᵥ u) = u ⬝ᵥ u := by
  rw [Matrix.dotProduct_mulVec]
  have h1 : Amat *ᵥ u = u ᵥ* Amat.transpose := (Matrix.vecMul_transpose Amat u).symm
  rw [h1, Matrix.vecMul_vecMul, hA, Matrix.vecMul_one]

lemma entry_as_dotProduct {n p : ℕ} (A B : GrassmannPoint n p) (T : SVDTriple p p)
    (hT : IsSVDOf T (A.val.transpose * B.val)) (i : Fin p) :
    T.S i = (A.val *ᵥ fun a => T.U a i) ⬝ᵥ (B.val *ᵥ fun b => T.V b i) := by
  have hD := diagonal_eq_conj T _ hT
  have h0 : T.S i = (T.U.transpose * (A.val.transpose * B.val) * T.V) i i := by
    have h := congrFun (congrFun hD i) i
    rwa [Matrix.diagonal_apply_eq] at h
  rw [h0]
  have h1 : (T.U.transpose * (A.val.transpose * B.val) * T.V) i i =
      ((fun a => T.U a i) ᵥ* (A.val.transpose * B.val)) ⬝ᵥ (fun b => T.V b i) := by
    simp only [Matrix.mul_apply, Matrix.dotProduct, Matrix.vecMul, Matrix.transpose_apply]
  rw [h1, ← Matrix.vecMul_vecMul, Matrix.vecMul_transpose, ← Matrix.dotProduct_mulVec]

lemma svd_S_le_one {n p : ℕ} (A B : GrassmannPoint n p) (T : SVDTriple p p)
    (hT : IsSVDOf T (A.val.transpose * B.val)) (i : Fin p) : T.S i ≤ 1 := by
  have hSi := entry_as_dotProduct A B T hT i
  have hu : (fun a => T.U a i) ⬝ᵥ (fun a => T.U a i) = 1 := by
    have h := congrFun (congrFun hT.left_orthonormal i) i
    rw [Matrix.one_apply_eq] at h
    simpa [Matrix.dotProduct, Matrix.mul_apply, Matrix.transpose_apply] using h
  have hv : (fun b => T.V b i) ⬝ᵥ (fun b => T.V b i) = 1 := by
    have h := congrFun (congrFun hT.right_orthonormal i) i
    rw [Matrix.one_apply_eq] at h
    simpa [Matrix.dotProduct, Matrix.mul_apply, Matrix.transpose_apply] using h
  have hxx : (A.val *ᵥ fun a => T.U a i) ⬝ᵥ (A.val *ᵥ fun a => T.U a i) = 1 := by
    rw [mulVec_orthonormal_dot A.val A.prop, hu]
  have hyy : (B.val *ᵥ fun b => T.V b i) ⬝ᵥ (B.val *ᵥ fun b => T.V b i) = 1 := by
    rw [mulVec_orthonormal_dot B.val B.prop, hv]
  have hxs : ∑ a, (A.val *ᵥ fun c => T.U c i) a ^ 2 = 1 := by
    rw [← hxx]
    simp [Matrix.dotProduct, sq]
  have hys : ∑ a, (B.val *ᵥ fun c => T.V c i) a ^ 2 = 1 := by
    rw [← hyy]
    simp [Matrix.dotProduct, sq]
  have hcs := Finset.sum_mul_sq_le_sq_mul_sq Finset.univ
    (fun a => (A.val *ᵥ fun c => T.U c i) a) (fun a => (B.val *ᵥ fun c => T.V c i) a)
  rw [hxs, hys, one_mul] at hcs
  have hsq : T.S i ^ 2 ≤ 1 := by
    rw [hSi]
    exact hcs
  exact (abs_le.mp (sq_le_one_iff_abs_le_one (a := T.S i) |>.mp hsq)).2

lemma distance_zero_of_orthogonal {k : ℕ} (Q : Mat k k) (T : SVDTriple k k)
    (hQ : Q.transpose * Q = 1) (hT : IsSVDOf T Q) : grassmann_distance T = 0 := by
  have hUUt : T.U * T.U.transpose = 1 := Matrix.mul_eq_one_comm.mp hT.left_orthonormal
  have hD := diagonal_eq_conj T Q hT
  have hDtD : Matrix.diagonal (fun i => T.S i * T.S i) = 1 := by
    have h1 : (Matrix.diagonal T.S).transpose * Matrix.diagonal T.S = 1 := by
      rw [hD, Matrix.transpose_mul, Matrix.transpose_mul, Matrix.transpose_transpose]
      calc T.V.transpose * (Q.transpose * T.U) * (T.U.transpose * Q * T.V)
          = T.V.transpose * (Q.transpose * ((T.U * T.U.transpose) * (Q * T.V))) := by
            simp only [Matrix.mul_assoc]
        _ = T.V.transpose * (Q.transpose * (Q * T.V)) := by rw [hUUt, Matrix.one_mul]
        _ = T.V.transpose * (Q.transpose * Q * T.V) := by simp only [Matrix.mul_assoc]
        _ = T.V.transpose * T.V := by rw [hQ, Matrix.one_mul]
        _ = 1 := hT.right_orthonormal
    rwa [Matrix.diagonal_transpose, Matrix.diagonal_mul_diagonal] at h1
  have hS1 : ∀ i, T.S i = 1 := by
    intro i
    have h := congrFun (congrFun hDtD i) i
    rw [Matrix.diagonal_apply_eq, Matrix.one_apply_eq] at h
    rcases mul_self_eq_one_iff.mp h with h1 | h1
    · exact h1
    · exact absurd (hT.nonneg i) (by rw [h1]; norm_num)
  unfold grassmann_distance
  have hz : ∀ i ∈ Finset.univ, Real.arccos (T.S i) ^ 2 = 0 := by
    intro i _
    rw [hS1 i, Real.arccos_one]
    norm_num
  rw [Finset.sum_eq_zero hz, Real.sqrt_zero]

lemma same_subspace_of_distance_zero {n p : ℕ} (A B : GrassmannPoint n p)
    (T : SVDTriple p p) (hT : IsSVDOf T (A.val.transpose * B.val))
    (hd : grassmann_distance T = 0) : SameSubspace A B := by
  have hge : ∀ i, 1 ≤ T.S i := by
    unfold grassmann_distance at hd
    have hsum0 : ∑ i, Real.arccos (T.S i) ^ 2 = 0 :=
      le_antisymm (Real.sqrt_eq_zero'.mp hd)
        (Finset.sum_nonneg fun i _ => sq_nonneg _)
    intro i
    have hterm := (Finset.sum_eq_zero_iff_of_nonneg
      (fun i _ => sq_nonneg (Real.arccos (T.S i)))).mp hsum0 i (Finset.mem_univ i)
    have harc : Real.arccos (T.S i) = 0 := by
      exact pow_eq_zero_iff two_ne_zero |>.mp hterm
    exact Real.arccos_eq_zero.mp harc
  have hS : T.S = fun _ => 1 :=
    funext fun i => le_antisymm (svd_S_le_one A B T hT i) (hge i)
  have hM : A.val.transpose * B.val = T.U * T.V.transpose := by
    rw [hT.factorization, hS, Matrix.diagonal_one, Matrix.mul_one]
  have hMt : (A.val.transpose * B.val).transpose = B.val.transpose * A.val := by
    rw [Matrix.transpose_mul, Matrix.transpose_transpose]
  have hMtM : (A.val.transpose * B.val).transpose * (A.val.transpose * B.val) = 1 := by
    rw [hM, Matrix.transpose_mul, Matrix.transpose_transpose]
    calc T.V * T.U.transpose * (T.U * T.V.transpose)
        = T.V * ((T.U.transpose * T.U) * T.V.transpose) := by
          simp only [Matrix.mul_assoc]
      _ = T.V * T.V.transpose := by rw [hT.left_orthonormal, Matrix.one_mul]
      _ = 1 := Matrix.mul_eq_one_comm.mp hT.right_orthonormal
  refine ⟨A.val.transpose * B.val, hMtM, ?_⟩
  have e1 : B.val.transpose * (A.val * (A.val.transpose * B.val)) = 1 := by
    calc B.val.transpose * (A.val * (A.val.transpose * B.val))
        = (B.val.transpose * A.val) * (A.val.transpose * B.val) := by
          simp only [Matrix.mul_assoc]
      _ = (A.val.transpose * B.val).transpose * (A.val.transpose * B.val) := by
          rw [hMt]
      _ = 1 := hMtM
  have e2 : (A.val * (A.val.transpose * B.val)).transpose * B.val = 1 := by
    rw [Matrix.transpose_mul]
    calc (A.val.transpose * B.val).transpose * A.val.transpose * B.val
        = (A.val.transpose * B.val).transpose * (A.val.transpose * B.val) := by
          simp only [Matrix.mul_assoc]
      _ = 1 := hMtM
  have e3 : (A.val * (A.val.transpose * B.val)).transpose *
      (A.val * (A.val.transpose * B.val)) = 1 := by
    rw [Matrix.transpose_mul]
    calc (A.val.transpose * B.val).transpose * A.val.transpose *
          (A.val * (A.val.transpose * B.val))
        = (A.val.transpose * B.val).transpose *
            ((A.val.transpose * A.val) * (A.val.transpose * B.val)) := by
          simp only [Matrix.mul_assoc]
      _ = (A.val.transpose * B.val).transpose * (A.val.transpose * B.val) := by
          rw [A.prop, Matrix.one_mul]
      _ = 1 := hMtM
  have hN : (B.val - A.val * (A.val.transpose * B.val)).transpose *
      (B.val - A.val * (A.val.transpose * B.val)) = 0 := by
    rw [Matrix.transpose_sub, Matrix.sub_mul, Matrix.mul_sub, Matrix.mul_sub,
      B.prop, e1, e2, e3]
    simp
  have hzero : B.val - A.val * (A.val.transpose * B.val) = 0 := by
    have hconj : (B.val - A.val * (A.val.transpose * B.val)).conjTranspose =
        (B.val - A.val * (A.val.transpose * B.val)).transpose := by
      ext a b
      simp [Matrix.conjTranspose_apply]
    exact Matrix.conjTranspose_mul_self_eq_zero.mp (by rw [hconj]; exact hN)
  exact sub_eq_zero.mp hzero

lemma distance_zero_of_same_subspace {n p : ℕ} (A B : GrassmannPoint n p)
    (T : SVDTriple p p) (hT : IsSVDOf T (A.val.transpose * B.val))
    (hs : SameSubspace A B) : grassmann_distance T = 0 := by
  obtain ⟨Q, hQ, hB⟩ := hs
  have hM : A.val.transpose * B.val = Q := by
    rw [hB, ← Matrix.mul_assoc, A.prop, Matrix.one_mul]
  exact distance_zero_of_orthogonal Q T hQ (hM ▸ hT)

/-- C4: the Grassmann distance is a non-negative real, it vanishes exactly
when the two Grassmann Points span the same subspace, and in particular the
distance from a point to itself is zero (for any contract-satisfying outputs
of the SVD routine on the respective basis products). -/
theorem grassmann_distance_spec {n p : ℕ} (A B : GrassmannPoint n p)
    (T : SVDTriple p p) (hT : IsSVDOf T (A.val.transpose * B.val)) :
    0 ≤ grassmann_distance T ∧
    (grassmann_distance T = 0 ↔ SameSubspace A B) ∧
    (∀ T' : SVDTriple p p, IsSVDOf T' (A.val.transpose * A.val) →
      grassmann_distance T' = 0) := by
  refine ⟨Real.sqrt_nonneg _,
    ⟨fun hd => same_subspace_of_distance_zero A B T hT hd,
     fun hs => distance_zero_of_same_subspace A B T hT hs⟩, ?_⟩
  intro T' hT'
  have hQ : (A.val.transpose * A.val).transpose * (A.val.transpose * A.val) = 1 := by
    rw [A.prop]
    simp
  exact distance_zero_of_orthogonal _ T' hQ hT'

/-- Witness for C4: the 1×1 identity data realizes non-negativity, the
zero-distance characterization and the self-distance clause. -/
theorem grassmann_distance_spec_witness :
    0 ≤ grassmann_distance (⟨1, fun _ => 1, 1⟩ : SVDTriple 1 1) ∧
    (grassmann_distance (⟨1, fun _ => 1, 1⟩ : SVDTriple 1 1) = 0 ↔
      SameSubspace (⟨1, by simp⟩ : GrassmannPoint 1 1) ⟨1, by simp⟩) ∧
    (∀ T' : SVDTriple 1 1,
      IsSVDOf T' ((⟨1, by simp⟩ : GrassmannPoint 1 1).val.transpose *
        (⟨1, by simp⟩ : GrassmannPoint 1 1).val) →
      grassmann_distance T' = 0) :=
  grassmann_distance_spec (⟨1, by simp⟩ : GrassmannPoint 1 1) ⟨1, by simp⟩
    ⟨1, fun _ => 1, 1⟩
    ⟨by simp [Matrix.diagonal_one], by simp, by simp, antitone_const, fun i => zero_le_one⟩

/-- Witness for C7: concrete 1×1 data realizes the log/exp round trip at the
anchor. -/
theorem log_exp_roundtrip_witness :
    log_tangent (⟨1, fun _ => 0, 1⟩ : SVDTriple 1 1) = 0 ∧
    exp_point (⟨1, by simp⟩ : GrassmannPoint 1 1) ⟨1, fun _ => 0, 1⟩ =
      (⟨1, by simp⟩ : GrassmannPoint 1 1).val :=
  log_exp_roundtrip (⟨1, by simp⟩ : GrassmannPoint 1 1)
    ⟨1, fun _ => 0, 1⟩ ⟨1, fun _ => 0, 1⟩
    ⟨by simp [log_residual], by simp, by simp, antitone_const, fun i => le_refl 0⟩
    ⟨by simp, by simp, by simp, antitone_const, fun i => le_refl 0⟩
